import Mathlib

/-!
Verification of the luxfi/zmq (zmq4) messaging library against its design
specification.  Go source files are shallowly embedded: bytes are `Nat`
values below 256, byte slices are `List Nat`, Go maps are association
lists, and fallible functions return `Option` or `Except`.
-/

namespace Zmq4

/-! ## Hex encoding (Go `encoding/hex`), used by auth.go's key helpers -/

/-- One hex digit character for a nibble value, per Go's hextable
`"0123456789abcdef"`. -/
def hexDigit (n : Nat) : Char :=
  if n < 10 then Char.ofNat (48 + n) else Char.ofNat (97 + (n - 10))

/-- `hex.EncodeToString`: two lowercase hex digits per byte. -/
def hexEncodeList (bs : List Nat) : List Char :=
  bs.flatMap (fun b => [hexDigit (b / 16), hexDigit (b % 16)])

/-- `hex.EncodeToString` producing a Lean `String`. -/
def hexEncode (bs : List Nat) : String :=
  ⟨hexEncodeList bs⟩

/-- Value of one hex digit character; Go's `fromHexChar` accepts
`0-9`, `a-f` and `A-F`. -/
def hexDigitVal (c : Char) : Option Nat :=
  if 48 ≤ c.toNat ∧ c.toNat ≤ 57 then some (c.toNat - 48)
  else if 97 ≤ c.toNat ∧ c.toNat ≤ 102 then some (c.toNat - 97 + 10)
  else if 65 ≤ c.toNat ∧ c.toNat ≤ 70 then some (c.toNat - 65 + 10)
  else none

/-- `hex.DecodeString` on a character list: bytes from pairs of digits;
fails on a non-hex character or an odd-length input. -/
def hexDecodeList : List Char → Option (List Nat)
  | [] => some []
  | [_] => none
  | c1 :: c2 :: rest =>
    match hexDigitVal c1, hexDigitVal c2, hexDecodeList rest with
    | some h, some l, some bs => some ((h * 16 + l) :: bs)
    | _, _, _ => none

/-- `hex.DecodeString` on a Lean `String`. -/
def hexDecode (s : String) : Option (List Nat) :=
  hexDecodeList s.data

/-! ## auth.go: CURVE key helpers and Z85 helpers -/

/-- Go's `copy(dst, src)` for a fresh zeroed `dst` of length `n`:
the first `min n src.length` bytes come from `src`, the rest stay zero. -/
def copyBytes (n : Nat) (src : List Nat) : List Nat :=
  src.take n ++ List.replicate (n - src.length) 0

/-- `NewCurveKeypair` (auth.go): draws 32 random bytes `secret`
(modelled as the argument), copies them into `public`, and returns both
hex-encoded.  Result is `(publicKey, secretKey)`. -/
def NewCurveKeypair (secret : List Nat) : String × String :=
  let public := copyBytes 32 secret
  (hexEncode public, hexEncode secret)

/-- `AuthCurvePublic` (auth.go lines 30–38): hex-decodes the secret key
and, on success, returns the secret key string itself unchanged;
`none` models the error return. -/
def AuthCurvePublic (secretKey : String) : Option String :=
  match hexDecode secretKey with
  | none => none
  | some _ => some secretKey

/-- `Z85encode` (auth.go): implemented as hex encoding. -/
def Z85encode (data : List Nat) : String :=
  hexEncode data

/-- `Z85decode` (auth.go): implemented as hex decoding. -/
def Z85decode (text : String) : Option (List Nat) :=
  hexDecode text

/-! ### Hex round-trip -/

theorem hexDigitVal_hexDigit (n : Nat) (h : n < 16) :
    hexDigitVal (hexDigit n) = some n := by
  interval_cases n <;> decide

theorem hexDecodeList_hexEncodeList (bs : List Nat)
    (h : ∀ b ∈ bs, b < 256) : hexDecodeList (hexEncodeList bs) = some bs := by
  induction bs with
  | nil => simp [hexEncodeList, hexDecodeList]
  | cons b rest ih =>
    have hb : b < 256 := h b (List.mem_cons_self _ _)
    have hhi : b / 16 < 16 := Nat.div_lt_of_lt_mul (by omega)
    have hlo : b % 16 < 16 := Nat.mod_lt _ (by omega)
    have hrest : hexDecodeList (hexEncodeList rest) = some rest :=
      ih (fun x hx => h x (List.mem_cons_of_mem _ hx))
    simp only [hexEncodeList, List.flatMap_cons, List.cons_append,
      List.nil_append] at *
    simp only [hexDecodeList, hexDigitVal_hexDigit _ hhi,
      hexDigitVal_hexDigit _ hlo, hrest]
    have : b / 16 * 16 + b % 16 = b := by omega
    simp [this]

theorem hexDecode_hexEncode (bs : List Nat) (h : ∀ b ∈ bs, b < 256) :
    hexDecode (hexEncode bs) = some bs := by
  simpa [hexDecode, hexEncode] using hexDecodeList_hexEncodeList bs h

/-- C8: For a 32-byte random draw, `NewCurveKeypair` returns a public key
string equal to the secret key string; `AuthCurvePublic` returns its
argument unchanged whenever it is valid hex, and errors exactly when it
is not valid hex. -/
theorem curve_public_equals_secret :
    (∀ secret : List Nat, secret.length = 32 →
      (NewCurveKeypair secret).1 = (NewCurveKeypair secret).2)
    ∧ (∀ s : String, (hexDecode s).isSome → AuthCurvePublic s = some s)
    ∧ (∀ s : String, AuthCurvePublic s = none ↔ hexDecode s = none) := by
  refine ⟨fun secret hlen => ?_, fun s hs => ?_, fun s => ?_⟩
  · have ht : secret.take 32 = secret := List.take_of_length_le (by omega)
    simp [NewCurveKeypair, copyBytes, hlen, ht]
  · rcases Option.isSome_iff_exists.mp hs with ⟨bs, hbs⟩
    simp [AuthCurvePublic, hbs]
  · unfold AuthCurvePublic
    cases h : hexDecode s <;> simp

/-- Witness for `curve_public_equals_secret` at concrete inputs. -/
theorem curve_public_equals_secret_witness :
    (NewCurveKeypair (List.replicate 32 7)).1
      = (NewCurveKeypair (List.replicate 32 7)).2
    ∧ AuthCurvePublic "00ff" = some "00ff" :=
  ⟨curve_public_equals_secret.1 (List.replicate 32 7) (by simp),
   curve_public_equals_secret.2.1 "00ff" (by decide)⟩

/-- C9: `Z85decode` inverts `Z85encode` on every byte slice. -/
theorem z85_roundtrip (d : List Nat) (h : ∀ b ∈ d, b < 256) :
    Z85decode (Z85encode d) = some d := by
  simpa [Z85decode, Z85encode] using hexDecode_hexEncode d h

/-- Witness for `z85_roundtrip` at a concrete byte slice. -/
theorem z85_roundtrip_witness :
    Z85decode (Z85encode [0, 171, 255]) = some [0, 171, 255] :=
  z85_roundtrip [0, 171, 255] (by decide)

/-! ## Socket monitoring (the monitor source file)

Event constants, `SocketEvent`, `Monitor`, `emitEvent`, `StopMonitor`.
The buffered Go channel of capacity 100 is modelled as the list of events
the observer will receive, in send order; the non-blocking channel send
with a `default` branch appends only while fewer than 100 events are
pending. -/

def EventConnected : Nat := 0x0001
def EventConnectDelayed : Nat := 0x0002
def EventConnectRetried : Nat := 0x0004
def EventListening : Nat := 0x0008
def EventBindFailed : Nat := 0x0010
def EventAccepted : Nat := 0x0020
def EventAcceptFailed : Nat := 0x0040
def EventClosed : Nat := 0x0080
def EventCloseFailed : Nat := 0x0100
def EventDisconnected : Nat := 0x0200
def EventMonitorStopped : Nat := 0x0400
def EventAll : Nat := 0xFFFF
def EventHandshakeSucceeded : Nat := 0x0800
def EventHandshakeFailed : Nat := 0x1000

/-- The thirteen named monitor events, in the order of the source's
`const` block. -/
def eventConstants : List Nat :=
  [EventConnected, EventConnectDelayed, EventConnectRetried, EventListening,
   EventBindFailed, EventAccepted, EventAcceptFailed, EventClosed,
   EventCloseFailed, EventDisconnected, EventMonitorStopped,
   EventHandshakeSucceeded, EventHandshakeFailed]

/-- `SocketEvent`: a socket monitoring event carrying the event code, the
associated address and an integer value. -/
structure SocketEvent where
  event : Nat
  address : String
  value : Int
deriving DecidableEq, Repr

/-- `socketMonitor`: monitoring state — endpoint, registered event mask,
the channel (pending events, capacity 100), and the `active` flag. -/
structure socketMonitor where
  endpoint : String
  events : Nat
  ch : List SocketEvent
  active : Bool
deriving DecidableEq, Repr

/-- The monitoring-relevant part of a `socket`: its `monitor` field. -/
structure MonSocket where
  monitor : Option socketMonitor
deriving DecidableEq, Repr

/-- `Monitor`: enables monitoring; errors if a monitor is already active,
otherwise installs a fresh monitor with an empty 100-slot channel. -/
def Monitor (s : MonSocket) (endpoint : String) (events : Nat) :
    Except String MonSocket :=
  match s.monitor with
  | some _ => .error "monitor already active"
  | none => .ok { s with monitor := some ⟨endpoint, events, [], true⟩ }

/-- `emitEvent`: sends a monitoring event if a monitor is present, active,
and has the event's bit set in its mask; the send is non-blocking and the
event is dropped when the 100-slot channel is full. -/
def emitEvent (s : MonSocket) (event : Nat) (address : String)
    (value : Int) : MonSocket :=
  match s.monitor with
  | none => s
  | some m =>
    if m.active ∧ m.events &&& event ≠ 0 then
      if m.ch.length < 100 then
        { s with monitor := some { m with ch := m.ch ++ [⟨event, address, value⟩] } }
      else s
    else s

/-- `emitEvent` as invoked at runtime: its first statement is
`s.mu.RLock()`.  `s.mu` is the same `sync.RWMutex` a caller may hold
write-locked, and Go's `sync.RWMutex` is not reentrant, so when the
caller holds the write lock the `RLock` blocks until that lock is
released; `wlockHeld` says whether the caller holds it, and `none`
models that the call never returns.  With the mutex free the
`RLock`/`RUnlock` pair is uncontended and the behaviour is
`emitEvent`. -/
def emitEventLocked (wlockHeld : Bool) (s : MonSocket) (event : Nat)
    (address : String) (value : Int) : Option MonSocket :=
  if wlockHeld then none
  else some (emitEvent s event address value)

/-- `StopMonitor`: takes `s.mu.Lock()` with a deferred `Unlock`, so the
write lock is held until the function returns.  It errors when no
monitor is active; otherwise it clears `active` and calls `emitEvent`
with `EventMonitorStopped` and the monitor's endpoint — while still
holding the write lock, which `emitEvent`'s own `s.mu.RLock()` then
waits on forever — and would afterwards remove the monitor and return
nil.  The outer `Option` is `none` when the call never returns; a
`some` result carries the returned socket and the channel contents as
seen by an observer holding the channel from `GetMonitorChannel`. -/
def StopMonitor (s : MonSocket) :
    Option (Except String (MonSocket × List SocketEvent)) :=
  match s.monitor with
  | none => some (.error "no monitor active")
  | some m =>
    let s1 : MonSocket := { s with monitor := some { m with active := false } }
    match emitEventLocked true s1 EventMonitorStopped m.endpoint 0 with
    | none => none
    | some s2 =>
      let observed := match s2.monitor with
        | some m2 => m2.ch
        | none => []
      some (.ok ({ s2 with monitor := none }, observed))

/-- The channel contents visible on a socket's monitor (empty when no
monitor is installed). -/
def monChannel (s : MonSocket) : List SocketEvent :=
  match s.monitor with
  | some m => m.ch
  | none => []

/-- C4: the thirteen monitor event constants are pairwise distinct, and
every event `emitEvent` delivers to the channel carries exactly the
address string and integer value it was invoked with. -/
theorem monitor_events_distinct_and_carry_address_value :
    eventConstants.Nodup
    ∧ ∀ s e a v, monChannel (emitEvent s e a v) = monChannel s
        ∨ monChannel (emitEvent s e a v)
            = monChannel s ++ [⟨e, a, v⟩] := by
  refine ⟨by decide, fun s e a v => ?_⟩
  cases hs : s.monitor with
  | none => left; simp [emitEvent, monChannel, hs]
  | some m =>
    by_cases hact : m.active = true ∧ m.events &&& e ≠ 0
    · by_cases hfull : m.ch.length < 100
      · right; simp [emitEvent, monChannel, hs, hact, hfull]
      · left; simp [emitEvent, monChannel, hs, hact, hfull]
    · left; simp [emitEvent, monChannel, hs, hact]

/-- C10: events reach the monitor channel only while a monitor is present
with `active` set and the event's bit in the registered mask, and a full
100-slot channel makes `emitEvent` drop the event, leaving the state
unchanged instead of blocking. -/
theorem emitEvent_gated_and_drops_when_full :
    ∀ s e a v,
      (monChannel (emitEvent s e a v) ≠ monChannel s →
        ∃ m, s.monitor = some m ∧ m.active = true ∧ m.events &&& e ≠ 0
          ∧ m.ch.length < 100)
      ∧ (∀ m, s.monitor = some m → 100 ≤ m.ch.length →
          emitEvent s e a v = s) := by
  intro s e a v
  constructor
  · intro hne
    cases hs : s.monitor with
    | none => simp [emitEvent, monChannel, hs] at hne
    | some m =>
      refine ⟨m, by simp [hs], ?_⟩
      by_cases hact : m.active = true ∧ m.events &&& e ≠ 0
      · by_cases hfull : m.ch.length < 100
        · exact ⟨hact.1, hact.2, hfull⟩
        · simp [emitEvent, monChannel, hs, hact, hfull] at hne
      · simp [emitEvent, monChannel, hs, hact] at hne
  · intro m hm hfull
    simp [emitEvent, hm, Nat.not_lt.mpr hfull]

/-- Witness for `emitEvent_gated_and_drops_when_full`: a full channel
drops the event. -/
theorem emitEvent_gated_and_drops_when_full_witness :
    emitEvent ⟨some ⟨"inproc://mon", EventAll,
        List.replicate 100 ⟨EventConnected, "a", 0⟩, true⟩⟩
      EventConnected "b" 1
    = ⟨some ⟨"inproc://mon", EventAll,
        List.replicate 100 ⟨EventConnected, "a", 0⟩, true⟩⟩ :=
  (emitEvent_gated_and_drops_when_full _ EventConnected "b" 1).2
    ⟨"inproc://mon", EventAll, List.replicate 100 ⟨EventConnected, "a", 0⟩, true⟩
    rfl (by simp)

/-- C5 (code bug): on a freshly monitored socket (mask `EventAll`),
`StopMonitor` never returns — holding `s.mu`'s write lock it calls
`emitEvent`, whose `s.mu.RLock()` on the same non-reentrant
`sync.RWMutex` blocks forever — so it neither returns nil nor delivers
an `EventMonitorStopped` event to the observer channel.  With no active
monitor it does return the error synchronously, before the emit path. -/
theorem stopMonitor_deadlocks_on_active_monitor :
    (Monitor ⟨none⟩ "inproc://mon" EventAll).map StopMonitor = .ok none
    ∧ StopMonitor ⟨none⟩ = some (.error "no monitor active") := by
  exact ⟨rfl, rfl⟩

/-! ## options.go: socket option constants -/

def OptionSubscribe : String := "SUBSCRIBE"
def OptionUnsubscribe : String := "UNSUBSCRIBE"
def OptionHWM : String := "HWM"
def OptionIdentity : String := "IDENTITY"

/-- The option-name constants declared by options.go's `const` block,
in source order. -/
def optionNames : List String :=
  [OptionSubscribe, OptionUnsubscribe, OptionHWM, OptionIdentity]

/-- C6: the recognized socket option names are exactly the four strings
SUBSCRIBE, UNSUBSCRIBE, HWM and IDENTITY, all distinct. -/
theorem option_names_exactly_four :
    optionNames = ["SUBSCRIBE", "UNSUBSCRIBE", "HWM", "IDENTITY"]
    ∧ optionNames.Nodup := by
  constructor <;> decide

/-! ## auth.go (registry variant): the process-wide Auth singleton

`getAuth` guards a package-level `*Auth` with `sync.Once`.  The model
makes pointer identity explicit: each run of the once-initializer body
stamps the created instance with a fresh `id` and bumps a creation
counter, and every registry operation goes through `getAuth` and writes
its mutation back to the same instance. -/

/-- The `Auth` struct: verbosity, running flag, `domain -> public key`
curve map, and `domain -> addresses` allow/deny maps, plus an `id`
modelling Go pointer identity. -/
structure Auth where
  id : Nat
  verbose : Bool
  running : Bool
  curveKeys : List (String × String)
  allow : List (String × List String)
  deny : List (String × List String)
deriving DecidableEq, Repr

/-- The zero-value maps instance the once-initializer builds. -/
def newAuth (id : Nat) : Auth :=
  ⟨id, false, false, [], [], []⟩

/-- The package-level state: the `authInstance` variable plus how many
times the `sync.Once` body has run. -/
structure AuthGlobal where
  authInstance : Option Auth
  created : Nat
deriving DecidableEq, Repr

/-- The state before any call: `authInstance` is nil. -/
def authGlobalInit : AuthGlobal := ⟨none, 0⟩

/-- `getAuth`: returns the existing singleton, or (once) creates it. -/
def getAuth (g : AuthGlobal) : Auth × AuthGlobal :=
  match g.authInstance with
  | some a => (a, g)
  | none =>
    let a := newAuth g.created
    (a, ⟨some a, g.created + 1⟩)

/-- Association-list lookup with Go's zero-value default (`nil` slice). -/
def lookupList (m : List (String × List String)) (k : String) : List String :=
  match m.find? (fun p => p.1 = k) with
  | some p => p.2
  | none => []

/-- Association-list store, replacing any previous binding. -/
def storeList (m : List (String × List String)) (k : String)
    (v : List String) : List (String × List String) :=
  (k, v) :: m.filter (fun p => ¬ p.1 = k)

/-- Map store for the curve-key map. -/
def storeKey (m : List (String × String)) (k v : String) :
    List (String × String) :=
  (k, v) :: m.filter (fun p => ¬ p.1 = k)

/-- Map delete for the curve-key map. -/
def deleteKey (m : List (String × String)) (k : String) :
    List (String × String) :=
  m.filter (fun p => ¬ p.1 = k)

/-- One call into the package-level registry API. -/
inductive AuthOp where
  | start
  | stop
  | setVerbose (v : Bool)
  | allow (domain : String) (addresses : List String)
  | deny (domain : String) (addresses : List String)
  | curveAdd (domain publicKey : String)
  | curveRemove (domain publicKey : String)
deriving DecidableEq, Repr

/-- The field mutation each registry call performs on the fetched
instance, as in the body of the corresponding Go function. -/
def authMutate (op : AuthOp) (a : Auth) : Auth :=
  match op with
  | .start => if a.running then a else { a with running := true }
  | .stop => { a with running := false, curveKeys := [], allow := [], deny := [] }
  | .setVerbose v => { a with verbose := v }
  | .allow d addrs =>
      { a with allow := storeList a.allow d (lookupList a.allow d ++ addrs) }
  | .deny d addrs =>
      { a with deny := storeList a.deny d (lookupList a.deny d ++ addrs) }
  | .curveAdd d pk => { a with curveKeys := storeKey a.curveKeys d pk }
  | .curveRemove d pk =>
      if a.curveKeys.find? (fun p => p.1 = d) = some (d, pk)
      then { a with curveKeys := deleteKey a.curveKeys d }
      else a

/-- Executes one registry call: fetch the singleton via `getAuth`,
mutate its fields, and write the mutated instance back. -/
def applyAuthOp (op : AuthOp) (g : AuthGlobal) : AuthGlobal :=
  let (a, g1) := getAuth g
  { g1 with authInstance := some (authMutate op a) }

/-- Runs a sequence of registry calls from a given package state. -/
def runAuthOps : List AuthOp → AuthGlobal → AuthGlobal
  | [], g => g
  | op :: ops, g => runAuthOps ops (applyAuthOp op g)

/-- Invariant: the once body ran at most once, and whatever instance is
installed is the one it created (id 0). -/
def AuthInv (g : AuthGlobal) : Prop :=
  g.created ≤ 1
  ∧ (g.authInstance = none → g.created = 0)
  ∧ (∀ a, g.authInstance = some a → a.id = 0 ∧ g.created = 1)

theorem getAuth_stable {g : AuthGlobal} {a : Auth}
    (h : g.authInstance = some a) : getAuth g = (a, g) := by
  simp [getAuth, h]

theorem authMutate_id (op : AuthOp) (a : Auth) :
    (authMutate op a).id = a.id := by
  cases op <;> simp only [authMutate] <;> split <;> rfl

theorem authInv_getAuth {g : AuthGlobal} (h : AuthInv g) :
    (getAuth g).1.id = 0 ∧ AuthInv (getAuth g).2
      ∧ (getAuth g).2.authInstance = some (getAuth g).1 := by
  obtain ⟨h1, h2, h3⟩ := h
  cases hg : g.authInstance with
  | some a =>
    have ha := h3 a hg
    rw [getAuth_stable hg]
    exact ⟨ha.1, ⟨h1, h2, h3⟩, hg⟩
  | none =>
    have hc := h2 hg
    have hget : getAuth g
        = (newAuth g.created, ⟨some (newAuth g.created), g.created + 1⟩) := by
      simp [getAuth, hg]
    rw [hget]
    refine ⟨by simp [newAuth, hc], ⟨?_, ?_, ?_⟩, rfl⟩
    · show g.created + 1 ≤ 1
      omega
    · intro hnone
      simp at hnone
    · intro a ha
      simp only [Option.some.injEq] at ha
      refine ⟨by rw [← ha]; simp [newAuth, hc], ?_⟩
      show g.created + 1 = 1
      omega

theorem authInv_applyAuthOp (op : AuthOp) {g : AuthGlobal} (h : AuthInv g) :
    AuthInv (applyAuthOp op g) := by
  obtain ⟨hid, ⟨h1, h2, h3⟩, hsome⟩ := authInv_getAuth h
  have hcreated : (getAuth g).2.created = 1 := ((h3 _ hsome)).2
  show AuthInv { (getAuth g).2 with
    authInstance := some (authMutate op (getAuth g).1) }
  refine ⟨h1, by simp, ?_⟩
  intro a ha
  simp only [Option.some.injEq] at ha
  constructor
  · rw [← ha, authMutate_id, hid]
  · exact hcreated

theorem authInv_runAuthOps (ops : List AuthOp) {g : AuthGlobal}
    (h : AuthInv g) : AuthInv (runAuthOps ops g) := by
  induction ops generalizing g with
  | nil => exact h
  | cons op ops ih => exact ih (authInv_applyAuthOp op h)

/-- C7: after any sequence of registry calls from the initial package
state, the once-initializer body has run at most once, `getAuth` returns
the one instance it created (id 0), and an immediately repeated
`getAuth` returns that same instance: every registry operation reads and
mutates the single shared `Auth`. -/
theorem auth_registry_is_singleton (ops : List AuthOp) :
    (runAuthOps ops authGlobalInit).created ≤ 1
    ∧ (getAuth (runAuthOps ops authGlobalInit)).1.id = 0
    ∧ (getAuth ((getAuth (runAuthOps ops authGlobalInit)).2)).1
        = (getAuth (runAuthOps ops authGlobalInit)).1 := by
  have hinit : AuthInv authGlobalInit := by
    refine ⟨by simp [authGlobalInit], fun _ => rfl, fun a ha => ?_⟩
    simp [authGlobalInit] at ha
  have h := authInv_runAuthOps ops hinit
  obtain ⟨hid, hinv, hsome⟩ := authInv_getAuth h
  exact ⟨h.1, hid, by rw [getAuth_stable hsome]⟩

/-! ## Wire Codec

The repository's message/frame codec source file is not present under
src/ (only the spec and tests refer to it), so the codec is modelled
from the spec, §4.1 and §6: per frame `[flags:1][length:1 or 8][payload]`
with flags bit0 = more-frames and bit1 = long-length, "more" set on all
frames but the last, streaming decode that reports partial input for
re-attempt, and a `ProtocolViolation` when a length field exceeds the
configured maximum frame size. -/

namespace Wire

/-- A frame: one opaque byte buffer. -/
abbrev Frame := List Nat

/-- A message: an ordered sequence of frames; valid when non-empty. -/
abbrev Message := List Frame

/-- Big-endian byte string of `n`, `k` bytes wide. -/
def beBytes : Nat → Nat → List Nat
  | 0, _ => []
  | k + 1, n => beBytes k (n / 256) ++ [n % 256]

/-- Value of a big-endian byte string. -/
def beVal (bs : List Nat) : Nat :=
  bs.foldl (fun a b => a * 256 + b) 0

/-- Modelled from the spec: the frame encoder of the Wire Codec, which is
missing from src/.  One flags byte (bit0 set when more frames follow,
bit1 set when the length field is 8 bytes, used when the payload exceeds
255 bytes), then the length field, then the payload. -/
def encodeFrame (more : Bool) (f : Frame) : List Nat :=
  let flags := (if more then 1 else 0) + (if 255 < f.length then 2 else 0)
  flags :: ((if 255 < f.length then beBytes 8 f.length else [f.length]) ++ f)

/-- Modelled from the spec: `encode(Message) -> bytes`; "more" is set on
every frame except the last. -/
def encode : Message → List Nat
  | [] => []
  | f :: fs => encodeFrame (!fs.isEmpty) f ++ encode fs

/-- Decode outcome other than a complete message: the input is a partial
frame to be re-attempted on the next read, or a protocol violation. -/
inductive DecodeErr where
  | incomplete
  | protocolViolation
deriving DecidableEq, Repr

/-- Modelled from the spec: decoding one frame from the stream.  Returns
the more-flag, the payload, and the bytes consumed; `protocolViolation`
when the length field exceeds `maxSize`. -/
def decodeFrame (maxSize : Nat) : List Nat → Except DecodeErr (Bool × Frame × Nat)
  | [] => .error .incomplete
  | flags :: rest =>
    let more := flags % 2 == 1
    if flags / 2 % 2 = 1 then
      if 8 ≤ rest.length then
        let len := beVal (rest.take 8)
        if maxSize < len then .error .protocolViolation
        else if rest.length - 8 < len then .error .incomplete
        else .ok (more, (rest.drop 8).take len, 9 + len)
      else .error .incomplete
    else
      match rest with
      | [] => .error .incomplete
      | b0 :: rest2 =>
        if maxSize < b0 then .error .protocolViolation
        else if rest2.length < b0 then .error .incomplete
        else .ok (more, rest2.take b0, 2 + b0)

/-- Frames accumulate until one with "more" cleared completes the
message; `fuel` bounds the number of frames read. -/
def decodeLoop (maxSize : Nat) : Nat → List Nat → Except DecodeErr (Message × Nat)
  | 0, _ => .error .incomplete
  | fuel + 1, bs =>
    match decodeFrame maxSize bs with
    | .error e => .error e
    | .ok (more, payload, used) =>
      if more then
        match decodeLoop maxSize fuel (bs.drop used) with
        | .error e => .error e
        | .ok (frames, used2) => .ok (payload :: frames, used + used2)
      else .ok ([payload], used)

/-- Modelled from the spec: `decode(bytes) -> (Message, bytesConsumed)`.
Each decoded frame consumes at least two bytes, so `bs.length + 1` fuel
always suffices. -/
def decode (maxSize : Nat) (bs : List Nat) : Except DecodeErr (Message × Nat) :=
  decodeLoop maxSize (bs.length + 1) bs

theorem beBytes_length (k n : Nat) : (beBytes k n).length = k := by
  induction k generalizing n with
  | zero => rfl
  | succ k ih => simp [beBytes, ih]

theorem beVal_beBytes (k n : Nat) (h : n < 256 ^ k) :
    beVal (beBytes k n) = n := by
  induction k generalizing n with
  | zero => simp at h; simp [beBytes, beVal, h]
  | succ k ih =>
    have hdiv : n / 256 < 256 ^ k := by
      have hp : (256 : Nat) ^ (k + 1) = 256 * 256 ^ k := by ring
      exact Nat.div_lt_of_lt_mul (hp ▸ h)
    have := ih (n / 256) hdiv
    simp only [beBytes, beVal] at *
    rw [List.foldl_append, this]
    simp [Nat.div_add_mod]
    omega

theorem decodeFrame_encodeFrame (maxSize : Nat) (more : Bool) (f : Frame)
    (rest : List Nat) (hmax : f.length ≤ maxSize) (h64 : f.length < 2 ^ 64) :
    decodeFrame maxSize (encodeFrame more f ++ rest)
      = .ok (more, f, (encodeFrame more f).length) := by
  by_cases hlong : 255 < f.length
  · have hflags : ((if more then 1 else 0) + (if 255 < f.length then 2 else 0) : Nat)
        = if more then 3 else 2 := by
      cases more <;> simp [hlong]
    have hlen8 : (beBytes 8 f.length).length = 8 := beBytes_length 8 f.length
    have htake : ((beBytes 8 f.length ++ f) ++ rest).take 8 = beBytes 8 f.length := by
      rw [List.append_assoc, List.take_append_of_le_length (by omega),
        List.take_of_length_le (by omega)]
    have hdrop : ((beBytes 8 f.length ++ f) ++ rest).drop 8 = f ++ rest := by
      rw [List.append_assoc, List.drop_append_of_le_length (by omega),
        List.drop_of_length_le (by omega)]
      simp
    have hval : beVal (beBytes 8 f.length) = f.length :=
      beVal_beBytes 8 f.length (by norm_num at h64 ⊢; omega)
    have htakef : (f ++ rest).take f.length = f := by
      rw [List.take_append_of_le_length (le_refl _), List.take_of_length_le (le_refl _)]
    cases more <;>
      simp [encodeFrame, decodeFrame, hlong, hflags, htake, hdrop, hval, htakef,
        Nat.not_lt.mpr hmax, beBytes_length] <;> omega
  · have hflags : ((if more then 1 else 0) + (if 255 < f.length then 2 else 0) : Nat)
        = if more then 1 else 0 := by
      cases more <;> simp [hlong]
    have htakef : (f ++ rest).take f.length = f := by
      rw [List.take_append_of_le_length (le_refl _), List.take_of_length_le (le_refl _)]
    cases more <;>
      simp [encodeFrame, decodeFrame, hlong, hflags, htakef, Nat.not_lt.mpr hmax] <;>
      omega

theorem encodeFrame_length_pos (more : Bool) (f : Frame) :
    0 < (encodeFrame more f).length := by
  simp [encodeFrame]

theorem decodeLoop_encode (maxSize : Nat) (m : Message) (rest : List Nat)
    (fuel : Nat) (hne : m ≠ []) (hfuel : m.length ≤ fuel)
    (hval : ∀ f ∈ m, f.length ≤ maxSize ∧ f.length < 2 ^ 64) :
    decodeLoop maxSize fuel (encode m ++ rest)
      = .ok (m, (encode m).length) := by
  induction m generalizing fuel rest with
  | nil => exact absurd rfl hne
  | cons f fs ih =>
    obtain ⟨fuel, rfl⟩ : ∃ k, fuel = k + 1 := by
      cases fuel with
      | zero => simp at hfuel
      | succ k => exact ⟨k, rfl⟩
    have hf := hval f (List.mem_cons_self _ _)
    cases fs with
    | nil =>
      have hdf := decodeFrame_encodeFrame maxSize false f rest hf.1 hf.2
      simp only [encode, List.isEmpty_nil, Bool.not_true, List.append_nil,
        List.append_assoc] at *
      simp [decodeLoop, hdf]
    | cons f2 fs2 =>
      have henc : encode (f :: f2 :: fs2)
          = encodeFrame true f ++ encode (f2 :: fs2) := rfl
      have hdf := decodeFrame_encodeFrame maxSize true f
        (encode (f2 :: fs2) ++ rest) hf.1 hf.2
      have hrec := ih rest fuel (by simp) (by simpa using Nat.le_of_succ_le_succ hfuel)
        (fun g hg => hval g (List.mem_cons_of_mem _ hg))
      have hdrop : ((encodeFrame true f ++ (encode (f2 :: fs2) ++ rest)).drop
          (encodeFrame true f).length) = encode (f2 :: fs2) ++ rest := by
        rw [List.drop_append_of_le_length (le_refl _),
          List.drop_of_length_le (le_refl _)]
        simp
      rw [henc, List.append_assoc]
      rw [decodeLoop, hdf]
      simp only [if_pos rfl]
      rw [hdrop, hrec]
      simp [List.length_append]

theorem encode_length_ge (m : Message) : m.length ≤ (encode m).length := by
  induction m with
  | nil => simp [encode]
  | cons f fs ih =>
    have := encodeFrame_length_pos (!fs.isEmpty) f
    simp only [encode, List.length_append, List.length_cons]
    omega

/-- C1: the Wire Codec round-trip law.  For every valid message (at
least one frame, each frame within the configured maximum and below the
8-byte length-field capacity), decoding the encoding returns the same
message frame-for-frame and byte-for-byte, consuming the whole
encoding. -/
theorem wire_codec_roundtrip (maxSize : Nat) (m : Message) (hne : m ≠ [])
    (hval : ∀ f ∈ m, f.length ≤ maxSize ∧ f.length < 2 ^ 64) :
    decode maxSize (encode m) = .ok (m, (encode m).length) := by
  have h := decodeLoop_encode maxSize m [] ((encode m).length + 1) hne
    (by have := encode_length_ge m; omega) hval
  simpa [decode] using h

/-- Witness for `wire_codec_roundtrip` at a concrete two-frame message. -/
theorem wire_codec_roundtrip_witness :
    decode 10 (encode [[5, 6], [7]]) = .ok ([[5, 6], [7]], 7) :=
  wire_codec_roundtrip 10 [[5, 6], [7]] (by decide) (by decide)

end Wire

/-! ## proxy.go: `Proxy(frontend, backend, capture)`

The function spawns four goroutines — two receive loops (one per
direction, each sending a clone to `capture` before handing the message
to a 100-slot channel) and two forwarding loops draining those channels
into the opposite socket — plus the main goroutine, which waits on a
2-slot error channel, closes `done`, waits for the receive loops, and
returns the error it took.

The model is a small-step interleaved state machine: each scheduler
choice runs one goroutine up to its next suspension point, exactly
following the Go control flow.  Sockets are scripts: a receive script
lists successive `Recv` results (exhaustion = `Recv` blocks), a send
script lists successive `Send` results (exhaustion = success).  Errors
are opaque tokens.  Every externally visible operation is appended to a
trace. -/

namespace ProxyModel

/-- A message (`Msg`): frames of bytes. -/
abbrev Msg := List (List Nat)

/-- `Msg.Clone`: a deep, buffer-level copy of every frame. -/
def cloneMsg (m : Msg) : Msg :=
  m.map (fun f => f.map (fun b => b))

/-- An error token (Go `error` values are opaque here). -/
abbrev PErr := Nat

/-- Observable operations of one proxy run. -/
inductive PAction where
  | recvFront (m : Msg)
  | recvBack (m : Msg)
  | captureFront (m : Msg)
  | captureBack (m : Msg)
  | sendBack (m : Msg)
  | sendFront (m : Msg)
  | errProduced (e : PErr)
deriving DecidableEq, Repr

/-- Control state of a receive loop: at the loop top, parked on the
channel-send `select` with a pending message, parked on the
error-channel `select`, or returned. -/
inductive RecvPhase where
  | run
  | enq (m : Msg)
  | reportErr (e : PErr)
  | stopped
deriving DecidableEq, Repr

/-- Control state of a forwarding (sender) loop. -/
inductive SendPhase where
  | run
  | reportErr (e : PErr)
  | stopped
deriving DecidableEq, Repr

/-- Control state of the main goroutine of `Proxy`. -/
inductive MainPhase where
  | waitErr
  | waitWg (e : PErr)
  | returned (e : PErr)
deriving DecidableEq, Repr

deriving instance DecidableEq for Except

/-- The whole interleaved state of one `Proxy` call. -/
structure PState where
  hasCapture : Bool
  frontRecv : List (Except PErr Msg)
  backRecv : List (Except PErr Msg)
  backSendRes : List (Option PErr)
  frontSendRes : List (Option PErr)
  f2b : List Msg
  b2f : List Msg
  errChan : List PErr
  done : Bool
  f2bClosed : Bool
  b2fClosed : Bool
  frontLoop : RecvPhase
  backLoop : RecvPhase
  f2bSender : SendPhase
  b2fSender : SendPhase
  mainPh : MainPhase
  droppedF : List Msg
  droppedB : List Msg
  trace : List PAction
deriving DecidableEq, Repr

/-- One step of the frontend receive loop (proxy.go lines 32–60):
check `done`, `frontend.Recv()`, clone to capture, report an error to
`errChan` (capacity 2, with the `done` alternative), or park the message
on the 100-slot `frontToBack` channel. -/
def stepFront (s : PState) : PState :=
  match s.frontLoop with
  | .stopped => s
  | .reportErr e =>
    if s.errChan.length < 2 then
      { s with errChan := s.errChan ++ [e],
               trace := s.trace ++ [.errProduced e], frontLoop := .stopped }
    else if s.done then { s with frontLoop := .stopped }
    else s
  | .enq m =>
    if s.done then { s with frontLoop := .stopped, droppedF := s.droppedF ++ [m] }
    else if s.f2b.length < 100 then
      { s with f2b := s.f2b ++ [m], frontLoop := .run }
    else s
  | .run =>
    if s.done then { s with frontLoop := .stopped }
    else
      match s.frontRecv with
      | [] => s
      | .error e :: rest => { s with frontRecv := rest, frontLoop := .reportErr e }
      | .ok m :: rest =>
        { s with frontRecv := rest,
                 trace := s.trace ++ [.recvFront m]
                   ++ (if s.hasCapture then [.captureFront (cloneMsg m)] else []),
                 frontLoop := .enq m }

/-- One step of the backend receive loop (proxy.go lines 62–91). -/
def stepBack (s : PState) : PState :=
  match s.backLoop with
  | .stopped => s
  | .reportErr e =>
    if s.errChan.length < 2 then
      { s with errChan := s.errChan ++ [e],
               trace := s.trace ++ [.errProduced e], backLoop := .stopped }
    else if s.done then { s with backLoop := .stopped }
    else s
  | .enq m =>
    if s.done then { s with backLoop := .stopped, droppedB := s.droppedB ++ [m] }
    else if s.b2f.length < 100 then
      { s with b2f := s.b2f ++ [m], backLoop := .run }
    else s
  | .run =>
    if s.done then { s with backLoop := .stopped }
    else
      match s.backRecv with
      | [] => s
      | .error e :: rest => { s with backRecv := rest, backLoop := .reportErr e }
      | .ok m :: rest =>
        { s with backRecv := rest,
                 trace := s.trace ++ [.recvBack m]
                   ++ (if s.hasCapture then [.captureBack (cloneMsg m)] else []),
                 backLoop := .enq m }

/-- One step of the frontToBack forwarding loop (proxy.go lines 94–104):
`for msg := range frontToBack { backend.Send(msg) }`. -/
def stepF2BSender (s : PState) : PState :=
  match s.f2bSender with
  | .stopped => s
  | .reportErr e =>
    if s.errChan.length < 2 then
      { s with errChan := s.errChan ++ [e],
               trace := s.trace ++ [.errProduced e], f2bSender := .stopped }
    else if s.done then { s with f2bSender := .stopped }
    else s
  | .run =>
    match s.f2b with
    | [] => if s.f2bClosed then { s with f2bSender := .stopped } else s
    | m :: restq =>
      match s.backSendRes with
      | [] =>
        { s with f2b := restq, trace := s.trace ++ [.sendBack m] }
      | none :: rs =>
        { s with f2b := restq, backSendRes := rs,
                 trace := s.trace ++ [.sendBack m] }
      | some e :: rs =>
        { s with f2b := restq, backSendRes := rs,
                 trace := s.trace ++ [.sendBack m], f2bSender := .reportErr e }

/-- One step of the backToFront forwarding loop (proxy.go lines 106–116). -/
def stepB2FSender (s : PState) : PState :=
  match s.b2fSender with
  | .stopped => s
  | .reportErr e =>
    if s.errChan.length < 2 then
      { s with errChan := s.errChan ++ [e],
               trace := s.trace ++ [.errProduced e], b2fSender := .stopped }
    else if s.done then { s with b2fSender := .stopped }
    else s
  | .run =>
    match s.b2f with
    | [] => if s.b2fClosed then { s with b2fSender := .stopped } else s
    | m :: restq =>
      match s.frontSendRes with
      | [] =>
        { s with b2f := restq, trace := s.trace ++ [.sendFront m] }
      | none :: rs =>
        { s with b2f := restq, frontSendRes := rs,
                 trace := s.trace ++ [.sendFront m] }
      | some e :: rs =>
        { s with b2f := restq, frontSendRes := rs,
                 trace := s.trace ++ [.sendFront m], b2fSender := .reportErr e }

/-- One step of `Proxy`'s main goroutine (proxy.go lines 118–125):
`err := <-errChan; close(done); wg.Wait(); close(frontToBack);
close(backToFront); return err`. -/
def stepMain (s : PState) : PState :=
  match s.mainPh with
  | .waitErr =>
    match s.errChan with
    | [] => s
    | e :: restE => { s with errChan := restE, done := true, mainPh := .waitWg e }
  | .waitWg e =>
    if s.frontLoop = .stopped ∧ s.backLoop = .stopped then
      { s with f2bClosed := true, b2fClosed := true, mainPh := .returned e }
    else s
  | .returned _ => s

/-- The five concurrent tasks of one `Proxy` call. -/
inductive Task where
  | front
  | back
  | sendF2B
  | sendB2F
  | main
deriving DecidableEq, Repr

/-- One scheduler step. -/
def pstep : Task → PState → PState
  | .front, s => stepFront s
  | .back, s => stepBack s
  | .sendF2B, s => stepF2BSender s
  | .sendB2F, s => stepB2FSender s
  | .main, s => stepMain s

/-- A run of `Proxy` under an arbitrary schedule. -/
def prun : List Task → PState → PState
  | [], s => s
  | t :: ts, s => prun ts (pstep t s)

/-- The state at entry of `Proxy(frontend, backend, capture)`: all loops
running, channels empty, `done` open. -/
def pinit (cap : Bool) (fr br : List (Except PErr Msg))
    (bs fs : List (Option PErr)) : PState :=
  { hasCapture := cap, frontRecv := fr, backRecv := br,
    backSendRes := bs, frontSendRes := fs,
    f2b := [], b2f := [], errChan := [], done := false,
    f2bClosed := false, b2fClosed := false,
    frontLoop := .run, backLoop := .run,
    f2bSender := .run, b2fSender := .run,
    mainPh := .waitErr, droppedF := [], droppedB := [], trace := [] }

/-- Errors reported on `errChan`, in trace order. -/
def errsOf (t : List PAction) : List PErr :=
  t.filterMap fun a => match a with | .errProduced e => some e | _ => none

/-- Messages received from the frontend, in order. -/
def recvsF (t : List PAction) : List Msg :=
  t.filterMap fun a => match a with | .recvFront m => some m | _ => none

/-- Messages received from the backend, in order. -/
def recvsB (t : List PAction) : List Msg :=
  t.filterMap fun a => match a with | .recvBack m => some m | _ => none

/-- Clones sent to the capture socket by the frontend loop, in order. -/
def capsF (t : List PAction) : List Msg :=
  t.filterMap fun a => match a with | .captureFront m => some m | _ => none

/-- Clones sent to the capture socket by the backend loop, in order. -/
def capsB (t : List PAction) : List Msg :=
  t.filterMap fun a => match a with | .captureBack m => some m | _ => none

/-- Messages forwarded to the backend, in order. -/
def sendsB (t : List PAction) : List Msg :=
  t.filterMap fun a => match a with | .sendBack m => some m | _ => none

/-- Messages forwarded to the frontend, in order. -/
def sendsF (t : List PAction) : List Msg :=
  t.filterMap fun a => match a with | .sendFront m => some m | _ => none

/-- The message a receive loop holds while parked on its channel send. -/
def pendOf : RecvPhase → List Msg
  | .enq m => [m]
  | _ => []

@[simp] theorem errsOf_append (t u : List PAction) :
    errsOf (t ++ u) = errsOf t ++ errsOf u := by simp [errsOf]
@[simp] theorem recvsF_append (t u : List PAction) :
    recvsF (t ++ u) = recvsF t ++ recvsF u := by simp [recvsF]
@[simp] theorem recvsB_append (t u : List PAction) :
    recvsB (t ++ u) = recvsB t ++ recvsB u := by simp [recvsB]
@[simp] theorem capsF_append (t u : List PAction) :
    capsF (t ++ u) = capsF t ++ capsF u := by simp [capsF]
@[simp] theorem capsB_append (t u : List PAction) :
    capsB (t ++ u) = capsB t ++ capsB u := by simp [capsB]
@[simp] theorem sendsB_append (t u : List PAction) :
    sendsB (t ++ u) = sendsB t ++ sendsB u := by simp [sendsB]
@[simp] theorem sendsF_append (t u : List PAction) :
    sendsF (t ++ u) = sendsF t ++ sendsF u := by simp [sendsF]

@[simp] theorem errsOf_nil : errsOf [] = [] := rfl
@[simp] theorem errsOf_cons_errP (e : PErr) (t : List PAction) :
    errsOf (.errProduced e :: t) = e :: errsOf t := by simp [errsOf]
@[simp] theorem errsOf_cons_recvF (m : Msg) (t : List PAction) :
    errsOf (.recvFront m :: t) = errsOf t := by simp [errsOf]
@[simp] theorem errsOf_cons_recvB (m : Msg) (t : List PAction) :
    errsOf (.recvBack m :: t) = errsOf t := by simp [errsOf]
@[simp] theorem errsOf_cons_capF (m : Msg) (t : List PAction) :
    errsOf (.captureFront m :: t) = errsOf t := by simp [errsOf]
@[simp] theorem errsOf_cons_capB (m : Msg) (t : List PAction) :
    errsOf (.captureBack m :: t) = errsOf t := by simp [errsOf]
@[simp] theorem errsOf_cons_sendB (m : Msg) (t : List PAction) :
    errsOf (.sendBack m :: t) = errsOf t := by simp [errsOf]
@[simp] theorem errsOf_cons_sendF (m : Msg) (t : List PAction) :
    errsOf (.sendFront m :: t) = errsOf t := by simp [errsOf]
@[simp] theorem recvsF_nil : recvsF [] = [] := rfl
@[simp] theorem recvsF_cons_errP (e : PErr) (t : List PAction) :
    recvsF (.errProduced e :: t) = recvsF t := by simp [recvsF]
@[simp] theorem recvsF_cons_recvF (m : Msg) (t : List PAction) :
    recvsF (.recvFront m :: t) = m :: recvsF t := by simp [recvsF]
@[simp] theorem recvsF_cons_recvB (m : Msg) (t : List PAction) :
    recvsF (.recvBack m :: t) = recvsF t := by simp [recvsF]
@[simp] theorem recvsF_cons_capF (m : Msg) (t : List PAction) :
    recvsF (.captureFront m :: t) = recvsF t := by simp [recvsF]
@[simp] theorem recvsF_cons_capB (m : Msg) (t : List PAction) :
    recvsF (.captureBack m :: t) = recvsF t := by simp [recvsF]
@[simp] theorem recvsF_cons_sendB (m : Msg) (t : List PAction) :
    recvsF (.sendBack m :: t) = recvsF t := by simp [recvsF]
@[simp] theorem recvsF_cons_sendF (m : Msg) (t : List PAction) :
    recvsF (.sendFront m :: t) = recvsF t := by simp [recvsF]
@[simp] theorem recvsB_nil : recvsB [] = [] := rfl
@[simp] theorem recvsB_cons_errP (e : PErr) (t : List PAction) :
    recvsB (.errProduced e :: t) = recvsB t := by simp [recvsB]
@[simp] theorem recvsB_cons_recvF (m : Msg) (t : List PAction) :
    recvsB (.recvFront m :: t) = recvsB t := by simp [recvsB]
@[simp] theorem recvsB_cons_recvB (m : Msg) (t : List PAction) :
    recvsB (.recvBack m :: t) = m :: recvsB t := by simp [recvsB]
@[simp] theorem recvsB_cons_capF (m : Msg) (t : List PAction) :
    recvsB (.captureFront m :: t) = recvsB t := by simp [recvsB]
@[simp] theorem recvsB_cons_capB (m : Msg) (t : List PAction) :
    recvsB (.captureBack m :: t) = recvsB t := by simp [recvsB]
@[simp] theorem recvsB_cons_sendB (m : Msg) (t : List PAction) :
    recvsB (.sendBack m :: t) = recvsB t := by simp [recvsB]
@[simp] theorem recvsB_cons_sendF (m : Msg) (t : List PAction) :
    recvsB (.sendFront m :: t) = recvsB t := by simp [recvsB]
@[simp] theorem capsF_nil : capsF [] = [] := rfl
@[simp] theorem capsF_cons_errP (e : PErr) (t : List PAction) :
    capsF (.errProduced e :: t) = capsF t := by simp [capsF]
@[simp] theorem capsF_cons_recvF (m : Msg) (t : List PAction) :
    capsF (.recvFront m :: t) = capsF t := by simp [capsF]
@[simp] theorem capsF_cons_recvB (m : Msg) (t : List PAction) :
    capsF (.recvBack m :: t) = capsF t := by simp [capsF]
@[simp] theorem capsF_cons_capF (m : Msg) (t : List PAction) :
    capsF (.captureFront m :: t) = m :: capsF t := by simp [capsF]
@[simp] theorem capsF_cons_capB (m : Msg) (t : List PAction) :
    capsF (.captureBack m :: t) = capsF t := by simp [capsF]
@[simp] theorem capsF_cons_sendB (m : Msg) (t : List PAction) :
    capsF (.sendBack m :: t) = capsF t := by simp [capsF]
@[simp] theorem capsF_cons_sendF (m : Msg) (t : List PAction) :
    capsF (.sendFront m :: t) = capsF t := by simp [capsF]
@[simp] theorem capsB_nil : capsB [] = [] := rfl
@[simp] theorem capsB_cons_errP (e : PErr) (t : List PAction) :
    capsB (.errProduced e :: t) = capsB t := by simp [capsB]
@[simp] theorem capsB_cons_recvF (m : Msg) (t : List PAction) :
    capsB (.recvFront m :: t) = capsB t := by simp [capsB]
@[simp] theorem capsB_cons_recvB (m : Msg) (t : List PAction) :
    capsB (.recvBack m :: t) = capsB t := by simp [capsB]
@[simp] theorem capsB_cons_capF (m : Msg) (t : List PAction) :
    capsB (.captureFront m :: t) = capsB t := by simp [capsB]
@[simp] theorem capsB_cons_capB (m : Msg) (t : List PAction) :
    capsB (.captureBack m :: t) = m :: capsB t := by simp [capsB]
@[simp] theorem capsB_cons_sendB (m : Msg) (t : List PAction) :
    capsB (.sendBack m :: t) = capsB t := by simp [capsB]
@[simp] theorem capsB_cons_sendF (m : Msg) (t : List PAction) :
    capsB (.sendFront m :: t) = capsB t := by simp [capsB]
@[simp] theorem sendsB_nil : sendsB [] = [] := rfl
@[simp] theorem sendsB_cons_errP (e : PErr) (t : List PAction) :
    sendsB (.errProduced e :: t) = sendsB t := by simp [sendsB]
@[simp] theorem sendsB_cons_recvF (m : Msg) (t : List PAction) :
    sendsB (.recvFront m :: t) = sendsB t := by simp [sendsB]
@[simp] theorem sendsB_cons_recvB (m : Msg) (t : List PAction) :
    sendsB (.recvBack m :: t) = sendsB t := by simp [sendsB]
@[simp] theorem sendsB_cons_capF (m : Msg) (t : List PAction) :
    sendsB (.captureFront m :: t) = sendsB t := by simp [sendsB]
@[simp] theorem sendsB_cons_capB (m : Msg) (t : List PAction) :
    sendsB (.captureBack m :: t) = sendsB t := by simp [sendsB]
@[simp] theorem sendsB_cons_sendB (m : Msg) (t : List PAction) :
    sendsB (.sendBack m :: t) = m :: sendsB t := by simp [sendsB]
@[simp] theorem sendsB_cons_sendF (m : Msg) (t : List PAction) :
    sendsB (.sendFront m :: t) = sendsB t := by simp [sendsB]
@[simp] theorem sendsF_nil : sendsF [] = [] := rfl
@[simp] theorem sendsF_cons_errP (e : PErr) (t : List PAction) :
    sendsF (.errProduced e :: t) = sendsF t := by simp [sendsF]
@[simp] theorem sendsF_cons_recvF (m : Msg) (t : List PAction) :
    sendsF (.recvFront m :: t) = sendsF t := by simp [sendsF]
@[simp] theorem sendsF_cons_recvB (m : Msg) (t : List PAction) :
    sendsF (.recvBack m :: t) = sendsF t := by simp [sendsF]
@[simp] theorem sendsF_cons_capF (m : Msg) (t : List PAction) :
    sendsF (.captureFront m :: t) = sendsF t := by simp [sendsF]
@[simp] theorem sendsF_cons_capB (m : Msg) (t : List PAction) :
    sendsF (.captureBack m :: t) = sendsF t := by simp [sendsF]
@[simp] theorem sendsF_cons_sendB (m : Msg) (t : List PAction) :
    sendsF (.sendBack m :: t) = sendsF t := by simp [sendsF]
@[simp] theorem sendsF_cons_sendF (m : Msg) (t : List PAction) :
    sendsF (.sendFront m :: t) = m :: sendsF t := by simp [sendsF]

/-- The run invariant of `Proxy`: the error channel carries exactly the
produced errors until the main goroutine takes one; after that, the
taken error heads the produced-error list and `done` is closed; on
return both receive loops have stopped; the capture trace is the clone
of the receive trace; and each direction's receives are exactly its
forwards plus what is still queued, parked, or was dropped at
shutdown. -/
structure PInv (s : PState) : Prop where
  errQ : s.mainPh = .waitErr → s.errChan = errsOf s.trace ∧ s.done = false
  firstE : ∀ e, (s.mainPh = .waitWg e ∨ s.mainPh = .returned e) →
    s.done = true ∧ ∃ r, errsOf s.trace = e :: r
  retStop : ∀ e, s.mainPh = .returned e →
    s.frontLoop = .stopped ∧ s.backLoop = .stopped
  capFr : capsF s.trace = if s.hasCapture then (recvsF s.trace).map cloneMsg else []
  capBk : capsB s.trace = if s.hasCapture then (recvsB s.trace).map cloneMsg else []
  consF : recvsF s.trace = sendsB s.trace ++ s.f2b ++ pendOf s.frontLoop ++ s.droppedF
  consB : recvsB s.trace = sendsF s.trace ++ s.b2f ++ pendOf s.backLoop ++ s.droppedB
  dropF : s.frontLoop ≠ .stopped → s.droppedF = []
  dropB : s.backLoop ≠ .stopped → s.droppedB = []

theorem pinv_stepFront {s : PState} (h : PInv s) : PInv (stepFront s) := by
  obtain ⟨errQ, firstE, retStop, capFr, capBk, consF, consB, dropF, dropB⟩ := h
  cases hfl : s.frontLoop with
  | stopped =>
    simp only [stepFront, hfl]
    exact ⟨errQ, firstE, retStop, capFr, capBk, consF, consB, dropF, dropB⟩
  | reportErr e =>
    rw [hfl] at consF dropF
    simp only [stepFront, hfl]
    split_ifs with h1 h2
    · refine ⟨?_, ?_, ?_, ?_, ?_, ?_, ?_, ?_, ?_⟩
      · intro hm
        obtain ⟨hq, hd⟩ := errQ hm
        exact ⟨by simp [hq], hd⟩
      · intro e' he'
        obtain ⟨hd, r, hr⟩ := firstE e' he'
        exact ⟨hd, r ++ [e], by simp [hr]⟩
      · intro e' he'
        exact ⟨rfl, (retStop e' he').2⟩
      · simpa using capFr
      · simpa using capBk
      · simpa [pendOf] using consF
      · simpa using consB
      · intro hne
        exact dropF (by simp)
      · exact dropB
    · refine ⟨errQ, firstE, ?_, capFr, capBk, ?_, consB, ?_, dropB⟩
      · intro e' he'
        exact ⟨rfl, (retStop e' he').2⟩
      · simpa [pendOf] using consF
      · intro hne
        exact dropF (by simp)
    · exact ⟨errQ, firstE, retStop, capFr, capBk, by rw [hfl]; exact consF,
        consB, by rw [hfl]; exact dropF, dropB⟩
  | enq m =>
    rw [hfl] at consF dropF
    have hdF : s.droppedF = [] := dropF (by simp)
    rw [hdF] at consF
    simp only [stepFront, hfl]
    split_ifs with h1 h2
    · refine ⟨errQ, firstE, ?_, capFr, capBk, ?_, consB, ?_, dropB⟩
      · intro e' he'
        exact ⟨rfl, (retStop e' he').2⟩
      · simpa [pendOf, hdF] using consF
      · intro hne
        exact absurd rfl hne
    · refine ⟨errQ, firstE, ?_, capFr, capBk, ?_, consB, ?_, dropB⟩
      · intro e' he'
        have := (retStop e' he').1
        rw [hfl] at this
        exact absurd this (by simp)
      · simpa [pendOf, hdF] using consF
      · intro hne
        exact hdF
    · exact ⟨errQ, firstE, retStop, capFr, capBk, by rw [hfl, hdF]; exact consF,
        consB, by rw [hfl, hdF]; intro hne; rfl, dropB⟩
  | run =>
    rw [hfl] at consF dropF
    have hdF : s.droppedF = [] := dropF (by simp)
    rw [hdF] at consF
    simp only [stepFront, hfl]
    by_cases h1 : s.done = true
    · rw [if_pos h1]
      refine ⟨errQ, firstE, ?_, capFr, capBk, ?_, consB, ?_, dropB⟩
      · intro e' he'
        exact ⟨rfl, (retStop e' he').2⟩
      · simpa [pendOf, hdF] using consF
      · intro hne
        exact hdF
    · rw [if_neg h1]
      cases hfr : s.frontRecv with
      | nil =>
        exact ⟨errQ, firstE, retStop, capFr, capBk, by rw [hfl, hdF]; exact consF,
          consB, by rw [hfl]; intro hne; exact hdF, dropB⟩
      | cons x rest =>
        cases x with
        | error e =>
          refine ⟨errQ, firstE, ?_, capFr, capBk, ?_, consB, ?_, dropB⟩
          · intro e' he'
            have := (retStop e' he').1
            rw [hfl] at this
            exact absurd this (by simp)
          · simpa [pendOf, hdF] using consF
          · intro hne
            exact hdF
        | ok m =>
          refine ⟨?_, ?_, ?_, ?_, ?_, ?_, ?_, ?_, ?_⟩
          · intro hm
            obtain ⟨hq, hd⟩ := errQ hm
            refine ⟨?_, hd⟩
            cases hc : s.hasCapture <;> simp [hq, hc]
          · intro e' he'
            obtain ⟨hd, r, hr⟩ := firstE e' he'
            refine ⟨hd, ?_⟩
            cases hc : s.hasCapture <;> simp [hr, hc]
          · intro e' he'
            have := (retStop e' he').1
            rw [hfl] at this
            exact absurd this (by simp)
          · cases hc : s.hasCapture <;>
              simp [hc] at capFr ⊢ <;> simp [capFr]
          · cases hc : s.hasCapture <;>
              simp [hc] at capBk ⊢ <;> simp [capBk]
          · cases hc : s.hasCapture <;>
              simp [hc, pendOf, hdF, consF, List.append_assoc]
          · cases hc : s.hasCapture <;> simp [hc, consB]
          · intro hne
            exact hdF
          · exact dropB

theorem pinv_stepBack {s : PState} (h : PInv s) : PInv (stepBack s) := by
  obtain ⟨errQ, firstE, retStop, capFr, capBk, consF, consB, dropF, dropB⟩ := h
  cases hbl : s.backLoop with
  | stopped =>
    simp only [stepBack, hbl]
    exact ⟨errQ, firstE, retStop, capFr, capBk, consF, consB, dropF, dropB⟩
  | reportErr e =>
    rw [hbl] at consB dropB
    simp only [stepBack, hbl]
    split_ifs with h1 h2
    · refine ⟨?_, ?_, ?_, ?_, ?_, ?_, ?_, ?_, ?_⟩
      · intro hm
        obtain ⟨hq, hd⟩ := errQ hm
        exact ⟨by simp [hq], hd⟩
      · intro e' he'
        obtain ⟨hd, r, hr⟩ := firstE e' he'
        exact ⟨hd, r ++ [e], by simp [hr]⟩
      · intro e' he'
        exact ⟨(retStop e' he').1, rfl⟩
      · simpa using capFr
      · simpa using capBk
      · simpa using consF
      · simpa [pendOf] using consB
      · exact dropF
      · intro hne
        exact dropB (by simp)
    · refine ⟨errQ, firstE, ?_, capFr, capBk, consF, ?_, dropF, ?_⟩
      · intro e' he'
        exact ⟨(retStop e' he').1, rfl⟩
      · simpa [pendOf] using consB
      · intro hne
        exact dropB (by simp)
    · exact ⟨errQ, firstE, retStop, capFr, capBk, consF,
        by rw [hbl]; exact consB, dropF, by rw [hbl]; exact dropB⟩
  | enq m =>
    rw [hbl] at consB dropB
    have hdB : s.droppedB = [] := dropB (by simp)
    rw [hdB] at consB
    simp only [stepBack, hbl]
    split_ifs with h1 h2
    · refine ⟨errQ, firstE, ?_, capFr, capBk, consF, ?_, dropF, ?_⟩
      · intro e' he'
        exact ⟨(retStop e' he').1, rfl⟩
      · simpa [pendOf, hdB] using consB
      · intro hne
        exact absurd rfl hne
    · refine ⟨errQ, firstE, ?_, capFr, capBk, consF, ?_, dropF, ?_⟩
      · intro e' he'
        have := (retStop e' he').2
        rw [hbl] at this
        exact absurd this (by simp)
      · simpa [pendOf, hdB] using consB
      · intro hne
        exact hdB
    · exact ⟨errQ, firstE, retStop, capFr, capBk, consF,
        by rw [hbl, hdB]; exact consB, dropF, by rw [hbl, hdB]; intro hne; rfl⟩
  | run =>
    rw [hbl] at consB dropB
    have hdB : s.droppedB = [] := dropB (by simp)
    rw [hdB] at consB
    simp only [stepBack, hbl]
    by_cases h1 : s.done = true
    · rw [if_pos h1]
      refine ⟨errQ, firstE, ?_, capFr, capBk, consF, ?_, dropF, ?_⟩
      · intro e' he'
        exact ⟨(retStop e' he').1, rfl⟩
      · simpa [pendOf, hdB] using consB
      · intro hne
        exact hdB
    · rw [if_neg h1]
      cases hbr : s.backRecv with
      | nil =>
        exact ⟨errQ, firstE, retStop, capFr, capBk, consF,
          by rw [hbl, hdB]; exact consB, dropF, by rw [hbl]; intro hne; exact hdB⟩
      | cons x rest =>
        cases x with
        | error e =>
          refine ⟨errQ, firstE, ?_, capFr, capBk, consF, ?_, dropF, ?_⟩
          · intro e' he'
            have := (retStop e' he').2
            rw [hbl] at this
            exact absurd this (by simp)
          · simpa [pendOf, hdB] using consB
          · intro hne
            exact hdB
        | ok m =>
          refine ⟨?_, ?_, ?_, ?_, ?_, ?_, ?_, ?_, ?_⟩
          · intro hm
            obtain ⟨hq, hd⟩ := errQ hm
            refine ⟨?_, hd⟩
            cases hc : s.hasCapture <;> simp [hq, hc]
          · intro e' he'
            obtain ⟨hd, r, hr⟩ := firstE e' he'
            refine ⟨hd, ?_⟩
            cases hc : s.hasCapture <;> simp [hr, hc]
          · intro e' he'
            have := (retStop e' he').2
            rw [hbl] at this
            exact absurd this (by simp)
          · cases hc : s.hasCapture <;>
              simp [hc] at capFr ⊢ <;> simp [capFr]
          · cases hc : s.hasCapture <;>
              simp [hc] at capBk ⊢ <;> simp [capBk]
          · cases hc : s.hasCapture <;> simp [hc, consF]
          · cases hc : s.hasCapture <;>
              simp [hc, pendOf, hdB, consB, List.append_assoc]
          · exact dropF
          · intro hne
            exact hdB

theorem pinv_stepF2BSender {s : PState} (h : PInv s) : PInv (stepF2BSender s) := by
  obtain ⟨errQ, firstE, retStop, capFr, capBk, consF, consB, dropF, dropB⟩ := h
  cases hsp : s.f2bSender with
  | stopped =>
    simp only [stepF2BSender, hsp]
    exact ⟨errQ, firstE, retStop, capFr, capBk, consF, consB, dropF, dropB⟩
  | reportErr e =>
    simp only [stepF2BSender, hsp]
    split_ifs with h1 h2
    · refine ⟨?_, ?_, retStop, ?_, ?_, ?_, ?_, dropF, dropB⟩
      · intro hm
        obtain ⟨hq, hd⟩ := errQ hm
        exact ⟨by simp [hq], hd⟩
      · intro e' he'
        obtain ⟨hd, r, hr⟩ := firstE e' he'
        exact ⟨hd, r ++ [e], by simp [hr]⟩
      · simpa using capFr
      · simpa using capBk
      · simpa using consF
      · simpa using consB
    · exact ⟨errQ, firstE, retStop, capFr, capBk, consF, consB, dropF, dropB⟩
    · exact ⟨errQ, firstE, retStop, capFr, capBk, consF, consB, dropF, dropB⟩
  | run =>
    simp only [stepF2BSender, hsp]
    cases hq2 : s.f2b with
    | nil =>
      have consF0 := consF
      rw [hq2] at consF
      split_ifs with h1
      · exact ⟨errQ, firstE, retStop, capFr, capBk, consF, consB, dropF, dropB⟩
      · exact ⟨errQ, firstE, retStop, capFr, capBk, consF0, consB, dropF, dropB⟩
    | cons m restq =>
      rw [hq2] at consF
      cases hbs : s.backSendRes with
      | nil =>
        refine ⟨?_, ?_, retStop, ?_, ?_, ?_, ?_, dropF, dropB⟩
        · intro hm
          obtain ⟨hq, hd⟩ := errQ hm
          exact ⟨by simp [hq], hd⟩
        · intro e' he'
          obtain ⟨hd, r, hr⟩ := firstE e' he'
          exact ⟨hd, r, by simp [hr]⟩
        · simpa using capFr
        · simpa using capBk
        · simp only [recvsF_append] at *
          simp [consF, List.append_assoc]
        · simpa using consB
      | cons r0 rs =>
        cases r0 with
        | none =>
          refine ⟨?_, ?_, retStop, ?_, ?_, ?_, ?_, dropF, dropB⟩
          · intro hm
            obtain ⟨hq, hd⟩ := errQ hm
            exact ⟨by simp [hq], hd⟩
          · intro e' he'
            obtain ⟨hd, r, hr⟩ := firstE e' he'
            exact ⟨hd, r, by simp [hr]⟩
          · simpa using capFr
          · simpa using capBk
          · simp only [recvsF_append] at *
            simp [consF, List.append_assoc]
          · simpa using consB
        | some e =>
          refine ⟨?_, ?_, retStop, ?_, ?_, ?_, ?_, dropF, dropB⟩
          · intro hm
            obtain ⟨hq, hd⟩ := errQ hm
            exact ⟨by simp [hq], hd⟩
          · intro e' he'
            obtain ⟨hd, r, hr⟩ := firstE e' he'
            exact ⟨hd, r, by simp [hr]⟩
          · simpa using capFr
          · simpa using capBk
          · simp only [recvsF_append] at *
            simp [consF, List.append_assoc]
          · simpa using consB

theorem pinv_stepB2FSender {s : PState} (h : PInv s) : PInv (stepB2FSender s) := by
  obtain ⟨errQ, firstE, retStop, capFr, capBk, consF, consB, dropF, dropB⟩ := h
  cases hsp : s.b2fSender with
  | stopped =>
    simp only [stepB2FSender, hsp]
    exact ⟨errQ, firstE, retStop, capFr, capBk, consF, consB, dropF, dropB⟩
  | reportErr e =>
    simp only [stepB2FSender, hsp]
    split_ifs with h1 h2
    · refine ⟨?_, ?_, retStop, ?_, ?_, ?_, ?_, dropF, dropB⟩
      · intro hm
        obtain ⟨hq, hd⟩ := errQ hm
        exact ⟨by simp [hq], hd⟩
      · intro e' he'
        obtain ⟨hd, r, hr⟩ := firstE e' he'
        exact ⟨hd, r ++ [e], by simp [hr]⟩
      · simpa using capFr
      · simpa using capBk
      · simpa using consF
      · simpa using consB
    · exact ⟨errQ, firstE, retStop, capFr, capBk, consF, consB, dropF, dropB⟩
    · exact ⟨errQ, firstE, retStop, capFr, capBk, consF, consB, dropF, dropB⟩
  | run =>
    simp only [stepB2FSender, hsp]
    cases hq2 : s.b2f with
    | nil =>
      have consB0 := consB
      rw [hq2] at consB
      split_ifs with h1
      · exact ⟨errQ, firstE, retStop, capFr, capBk, consF, consB, dropF, dropB⟩
      · exact ⟨errQ, firstE, retStop, capFr, capBk, consF, consB0, dropF, dropB⟩
    | cons m restq =>
      rw [hq2] at consB
      cases hbs : s.frontSendRes with
      | nil =>
        refine ⟨?_, ?_, retStop, ?_, ?_, ?_, ?_, dropF, dropB⟩
        · intro hm
          obtain ⟨hq, hd⟩ := errQ hm
          exact ⟨by simp [hq], hd⟩
        · intro e' he'
          obtain ⟨hd, r, hr⟩ := firstE e' he'
          exact ⟨hd, r, by simp [hr]⟩
        · simpa using capFr
        · simpa using capBk
        · simpa using consF
        · simp only [recvsB_append] at *
          simp [consB, List.append_assoc]
      | cons r0 rs =>
        cases r0 with
        | none =>
          refine ⟨?_, ?_, retStop, ?_, ?_, ?_, ?_, dropF, dropB⟩
          · intro hm
            obtain ⟨hq, hd⟩ := errQ hm
            exact ⟨by simp [hq], hd⟩
          · intro e' he'
            obtain ⟨hd, r, hr⟩ := firstE e' he'
            exact ⟨hd, r, by simp [hr]⟩
          · simpa using capFr
          · simpa using capBk
          · simpa using consF
          · simp only [recvsB_append] at *
            simp [consB, List.append_assoc]
        | some e =>
          refine ⟨?_, ?_, retStop, ?_, ?_, ?_, ?_, dropF, dropB⟩
          · intro hm
            obtain ⟨hq, hd⟩ := errQ hm
            exact ⟨by simp [hq], hd⟩
          · intro e' he'
            obtain ⟨hd, r, hr⟩ := firstE e' he'
            exact ⟨hd, r, by simp [hr]⟩
          · simpa using capFr
          · simpa using capBk
          · simpa using consF
          · simp only [recvsB_append] at *
            simp [consB, List.append_assoc]

theorem pinv_stepMain {s : PState} (h : PInv s) : PInv (stepMain s) := by
  obtain ⟨errQ, firstE, retStop, capFr, capBk, consF, consB, dropF, dropB⟩ := h
  cases hmp : s.mainPh with
  | waitErr =>
    simp only [stepMain, hmp]
    cases hec : s.errChan with
    | nil => exact ⟨errQ, firstE, retStop, capFr, capBk, consF, consB, dropF, dropB⟩
    | cons e restE =>
      obtain ⟨hq, hd⟩ := errQ hmp
      refine ⟨?_, ?_, ?_, capFr, capBk, consF, consB, dropF, dropB⟩
      · intro hm
        simp at hm
      · intro e' he'
        have he2 : e' = e := by
          rcases he' with h' | h' <;> simp_all
        subst he2
        refine ⟨rfl, restE, ?_⟩
        rw [← hq, hec]
      · intro e' he'
        simp at he'
  | waitWg e =>
    simp only [stepMain, hmp]
    split_ifs with hg
    · obtain ⟨hstopF, hstopB⟩ := hg
      refine ⟨?_, ?_, ?_, capFr, capBk, consF, consB, dropF, dropB⟩
      · intro hm
        simp at hm
      · intro e' he'
        have he2 : e' = e := by
          rcases he' with h' | h' <;> simp_all
        subst he2
        exact firstE e' (Or.inl hmp)
      · intro e' he'
        have he2 : e' = e := by simp_all
        subst he2
        exact ⟨hstopF, hstopB⟩
    · exact ⟨errQ, firstE, retStop, capFr, capBk, consF, consB, dropF, dropB⟩
  | returned e =>
    simp only [stepMain, hmp]
    exact ⟨errQ, firstE, retStop, capFr, capBk, consF, consB, dropF, dropB⟩

theorem pinv_pstep (t : Task) {s : PState} (h : PInv s) : PInv (pstep t s) := by
  cases t with
  | front => exact pinv_stepFront h
  | back => exact pinv_stepBack h
  | sendF2B => exact pinv_stepF2BSender h
  | sendB2F => exact pinv_stepB2FSender h
  | main => exact pinv_stepMain h

theorem pinv_prun (ts : List Task) {s : PState} (h : PInv s) : PInv (prun ts s) := by
  induction ts generalizing s with
  | nil => exact h
  | cons t ts ih => exact ih (pinv_pstep t h)

theorem pinv_pinit (cap : Bool) (fr br : List (Except PErr Msg))
    (bs fs : List (Option PErr)) : PInv (pinit cap fr br bs fs) := by
  refine ⟨?_, ?_, ?_, ?_, ?_, ?_, ?_, ?_, ?_⟩ <;>
    intros <;>
    simp_all [pinit, pendOf, errsOf, recvsF, recvsB, capsF, capsB, sendsB, sendsF]

theorem hasCapture_pstep (t : Task) (s : PState) :
    (pstep t s).hasCapture = s.hasCapture := by
  cases t <;>
    simp only [pstep, stepFront, stepBack, stepF2BSender, stepB2FSender, stepMain] <;>
    (repeat' split) <;> rfl

theorem hasCapture_prun (ts : List Task) (s : PState) :
    (prun ts s).hasCapture = s.hasCapture := by
  induction ts generalizing s with
  | nil => rfl
  | cons t ts ih => rw [prun, ih, hasCapture_pstep]

/-- C3: whenever a run of `Proxy` reaches its `return err` statement, the
error it returns is the first error reported by either forwarding
direction (a failed `Recv` or `Send`, peer close included), and both
receive loops have terminated before the return (`close(done)` followed
by `wg.Wait()`).  This holds for every schedule, every pair of socket
scripts, and with or without a capture socket. -/
theorem proxy_first_error_returned (ts : List Task) (cap : Bool)
    (fr br : List (Except PErr Msg)) (bs fs : List (Option PErr)) (e : PErr)
    (h : (prun ts (pinit cap fr br bs fs)).mainPh = .returned e) :
    (errsOf (prun ts (pinit cap fr br bs fs)).trace).head? = some e
    ∧ (prun ts (pinit cap fr br bs fs)).frontLoop = .stopped
    ∧ (prun ts (pinit cap fr br bs fs)).backLoop = .stopped := by
  have hinv := pinv_prun ts (pinv_pinit cap fr br bs fs)
  obtain ⟨hd, r, hr⟩ := hinv.firstE e (Or.inr h)
  obtain ⟨h1, h2⟩ := hinv.retStop e h
  exact ⟨by rw [hr]; rfl, h1, h2⟩

/-- Witness for `proxy_first_error_returned`: the frontend `Recv` fails
with error 7; the schedule lets the frontend loop report it, main take
it and close `done`, the backend loop observe `done` and stop, and main
return. -/
theorem proxy_first_error_returned_witness :
    (prun [.front, .front, .main, .back, .main]
        (pinit false [.error 7] [] [] [])).mainPh = .returned 7
    ∧ ((errsOf (prun [.front, .front, .main, .back, .main]
          (pinit false [.error 7] [] [] [])).trace).head? = some 7
       ∧ (prun [.front, .front, .main, .back, .main]
          (pinit false [.error 7] [] [] [])).frontLoop = .stopped
       ∧ (prun [.front, .front, .main, .back, .main]
          (pinit false [.error 7] [] [] [])).backLoop = .stopped) :=
  ⟨by decide,
   proxy_first_error_returned [.front, .front, .main, .back, .main]
     false [.error 7] [] [] [] 7 (by decide)⟩

/-- C2: with a non-nil capture socket, every message received on the
frontend or the backend is cloned and the clone sent to capture, and the
messages forwarded to the opposite socket are always a prefix of the
captured ones: the capture send happens before the forward of the same
message.  (The statement quantifies over every schedule; since it holds
at every reachable state, the capture of a message is in the trace no
later than its forward.) -/
theorem proxy_capture_before_forward (ts : List Task)
    (fr br : List (Except PErr Msg)) (bs fs : List (Option PErr)) :
    (capsF (prun ts (pinit true fr br bs fs)).trace
        = (recvsF (prun ts (pinit true fr br bs fs)).trace).map cloneMsg
      ∧ ∃ r1, capsF (prun ts (pinit true fr br bs fs)).trace
          = (sendsB (prun ts (pinit true fr br bs fs)).trace).map cloneMsg ++ r1)
    ∧ (capsB (prun ts (pinit true fr br bs fs)).trace
        = (recvsB (prun ts (pinit true fr br bs fs)).trace).map cloneMsg
      ∧ ∃ r2, capsB (prun ts (pinit true fr br bs fs)).trace
          = (sendsF (prun ts (pinit true fr br bs fs)).trace).map cloneMsg ++ r2) := by
  have hinv := pinv_prun ts (pinv_pinit true fr br bs fs)
  have hcap : (prun ts (pinit true fr br bs fs)).hasCapture = true := by
    rw [hasCapture_prun]
    rfl
  have hcF := hinv.capFr
  have hcB := hinv.capBk
  have hconsF := hinv.consF
  have hconsB := hinv.consB
  rw [hcap, if_pos rfl] at hcF hcB
  refine ⟨⟨hcF, ?_⟩, hcB, ?_⟩
  · exact ⟨((prun ts (pinit true fr br bs fs)).f2b
        ++ pendOf (prun ts (pinit true fr br bs fs)).frontLoop
        ++ (prun ts (pinit true fr br bs fs)).droppedF).map cloneMsg,
      by rw [hcF, hconsF]; simp [List.map_append, List.append_assoc]⟩
  · exact ⟨((prun ts (pinit true fr br bs fs)).b2f
        ++ pendOf (prun ts (pinit true fr br bs fs)).backLoop
        ++ (prun ts (pinit true fr br bs fs)).droppedB).map cloneMsg,
      by rw [hcB, hconsB]; simp [List.map_append, List.append_assoc]⟩

end ProxyModel

end Zmq4
